import Mathlib

/-!
Shallow embedding of the retrieval-and-assembly pipeline of the
nostrfetchweb repository (a web client that fetches files split into
chunk records published on nostr relays), together with theorems
checking the natural-language specification against the code.

Conventions of the embedding:
* byte buffers (`Uint8Array`) are `List Nat` with every entry `< 256`;
* JavaScript strings are `List Char` (or `String` where convenient);
* fallible code (`throw`) returns `Except`/`Option`;
* external library primitives (the `@noble` crypto functions,
  `JSON.parse`, the relay pool) are parameters of the embedding, since
  they are not part of this repository's source.
-/

namespace NostrFetch

/-- The 64-character standard base64 alphabet, shared by the browser's
`btoa`/`atob` and by the strict base64 codec of `@scure/base`. -/
def b64Alphabet : List Char :=
  ['A','B','C','D','E','F','G','H','I','J','K','L','M','N','O','P',
   'Q','R','S','T','U','V','W','X','Y','Z',
   'a','b','c','d','e','f','g','h','i','j','k','l','m','n','o','p',
   'q','r','s','t','u','v','w','x','y','z',
   '0','1','2','3','4','5','6','7','8','9','+','/']

/-- The base64 character for a 6-bit value. -/
def sixbitChar (n : Nat) : Char := b64Alphabet.getD n 'A'

/-- The 6-bit value of a base64 character, `none` for a character
outside the alphabet (in particular for the padding character). -/
def sixbitVal (c : Char) : Option Nat := b64Alphabet.findIdx? (· == c)

/-- Regroup a byte list into 6-bit groups, most significant bits first
(the bit-level core of base64 encoding). -/
def bytesToSixbits : List Nat → List Nat
  | a :: b :: c :: rest =>
      a / 4 :: ((a % 4) * 16 + b / 16) :: ((b % 16) * 4 + c / 64) :: c % 64 ::
        bytesToSixbits rest
  | [a] => [a / 4, (a % 4) * 16]
  | [a, b] => [a / 4, (a % 4) * 16 + b / 16, (b % 16) * 4]
  | [] => []

/-- Regroup 6-bit groups back into bytes, discarding the 2 or 4
trailing bits of a final group of 2 or 3 values (the bit-level core of
base64 decoding, as in the WHATWG forgiving-base64 algorithm). -/
def sixbitsToBytes : List Nat → List Nat
  | s1 :: s2 :: s3 :: s4 :: rest =>
      (s1 * 4 + s2 / 16) :: ((s2 % 16) * 16 + s3 / 4) :: ((s3 % 4) * 64 + s4) ::
        sixbitsToBytes rest
  | [s1, s2] => [s1 * 4 + s2 / 16]
  | [s1, s2, s3] => [s1 * 4 + s2 / 16, (s2 % 16) * 16 + s3 / 4]
  | _ => []

/-- Padding characters canonical base64 appends for a byte count `n`. -/
def b64PadChars (n : Nat) : List Char :=
  if n % 3 = 1 then ['=', '='] else if n % 3 = 2 then ['='] else []

/-- Model of the browser's `btoa`: canonical base64 encoding of a
latin1 string, given as its list of character codes; `btoa` throws an
`InvalidCharacterError` on a code above 255, hence the `Option`. -/
def btoa (codes : List Nat) : Option (List Char) :=
  if codes.any (fun c => 255 < c) then none
  else some ((bytesToSixbits codes).map sixbitChar ++ b64PadChars codes.length)

/-- ASCII whitespace, which the forgiving-base64 algorithm of `atob`
removes before decoding. -/
def isB64Space (c : Char) : Bool :=
  c == ' ' || c == Char.ofNat 9 || c == Char.ofNat 10 ||
    c == Char.ofNat 12 || c == Char.ofNat 13

/-- Remove the final character when it is the padding character. -/
def dropOneEq (s : List Char) : List Char :=
  match s.reverse with
  | c :: rest => if c = '=' then rest.reverse else s
  | [] => s

/-- Remove one trailing `=`, then possibly a second one, as the
forgiving-base64 algorithm does when the input length is a multiple
of 4. -/
def dropTrailingEq (s : List Char) : List Char := dropOneEq (dropOneEq s)

/-- Model of the browser's `atob`: the WHATWG forgiving-base64 decode.
Whitespace is stripped; up to two trailing `=` are stripped when the
length is a multiple of 4; a remaining length of 1 mod 4, or any
character outside the alphabet, fails; trailing bits are discarded. -/
def atob (s : List Char) : Option (List Nat) :=
  let t := s.filter (fun c => !(isB64Space c))
  let t := if t.length % 4 = 0 then dropTrailingEq t else t
  if t.length % 4 = 1 then none
  else
    match t.mapM sixbitVal with
    | none => none
    | some sixes => some (sixbitsToBytes sixes)

/-- Embedding of `uint8ArrayToBase64` (src/src/lib/types.ts): build the
latin1 string whose character codes are the bytes, then `btoa` it.
`String.fromCharCode` of a byte below 256 has that byte as character
code, so the intermediate string is the byte list itself. -/
def uint8ArrayToBase64 (bytes : List Nat) : Option (List Char) := btoa bytes

/-- Embedding of `base64ToUint8Array` (src/src/lib/types.ts): `atob`,
then read each character code of the resulting binary string. -/
def base64ToUint8Array (s : List Char) : Option (List Nat) := atob s

theorem sixbitsToBytes_bytesToSixbits : ∀ (l : List Nat), (∀ x ∈ l, x < 256) →
    sixbitsToBytes (bytesToSixbits l) = l
  | [], _ => rfl
  | [a], _ => by
      simp only [bytesToSixbits, sixbitsToBytes, List.cons.injEq, and_true]
      omega
  | [a, b], h => by
      have hb : b < 256 := h b (by simp)
      simp only [bytesToSixbits, sixbitsToBytes, List.cons.injEq, and_true]
      omega
  | a :: b :: c :: rest, h => by
      have hb : b < 256 := h b (by simp)
      have hc : c < 256 := h c (by simp)
      have ih := sixbitsToBytes_bytesToSixbits rest (fun x hx => h x (by simp [hx]))
      simp only [bytesToSixbits, sixbitsToBytes, ih, List.cons.injEq]
      refine ⟨by omega, by omega, by omega, trivial⟩

theorem bytesToSixbits_lt_64 : ∀ (l : List Nat), (∀ x ∈ l, x < 256) →
    ∀ s ∈ bytesToSixbits l, s < 64
  | [], _ => by simp [bytesToSixbits]
  | [a], h => by
      have ha : a < 256 := h a (by simp)
      intro s hs
      simp only [bytesToSixbits, List.mem_cons, List.not_mem_nil, or_false] at hs
      rcases hs with h1 | h1 <;> omega
  | [a, b], h => by
      have ha : a < 256 := h a (by simp)
      have hb : b < 256 := h b (by simp)
      intro s hs
      simp only [bytesToSixbits, List.mem_cons, List.not_mem_nil, or_false] at hs
      rcases hs with h1 | h1 | h1 <;> omega
  | a :: b :: c :: rest, h => by
      have ha : a < 256 := h a (by simp)
      have hb : b < 256 := h b (by simp)
      have hc : c < 256 := h c (by simp)
      have ih := bytesToSixbits_lt_64 rest (fun x hx => h x (by simp [hx]))
      intro s hs
      simp only [bytesToSixbits, List.mem_cons] at hs
      rcases hs with h1 | h1 | h1 | h1 | h1
      · omega
      · omega
      · omega
      · omega
      · exact ih s h1

theorem bytesToSixbits_length_mod_ne_one : ∀ l : List Nat,
    (bytesToSixbits l).length % 4 ≠ 1
  | [] => by simp [bytesToSixbits]
  | [_] => by simp [bytesToSixbits]
  | [_, _] => by simp [bytesToSixbits]
  | _ :: _ :: _ :: rest => by
      have ih := bytesToSixbits_length_mod_ne_one rest
      simp only [bytesToSixbits, List.length_cons]
      omega

theorem b64PadChars_add_three (n : Nat) : b64PadChars (n + 3) = b64PadChars n := by
  simp [b64PadChars, Nat.add_mod_right]

theorem encode_length_mod_four : ∀ l : List Nat,
    ((bytesToSixbits l).length + (b64PadChars l.length).length) % 4 = 0
  | [] => by simp [bytesToSixbits, b64PadChars]
  | [_] => by simp [bytesToSixbits, b64PadChars]
  | [_, _] => by simp [bytesToSixbits, b64PadChars]
  | _ :: _ :: _ :: rest => by
      have ih := encode_length_mod_four rest
      simp only [bytesToSixbits, List.length_cons]
      rw [show rest.length + 1 + 1 + 1 = rest.length + 3 by omega, b64PadChars_add_three]
      omega

theorem sixbitChar_ne_pad (n : Nat) : sixbitChar n ≠ '=' := by
  rcases Nat.lt_or_ge n 64 with h | h
  · revert h
    revert n
    decide
  · unfold sixbitChar
    rw [List.getD_eq_default]
    · decide
    · simpa [b64Alphabet] using h

theorem isB64Space_sixbitChar (n : Nat) : isB64Space (sixbitChar n) = false := by
  rcases Nat.lt_or_ge n 64 with h | h
  · revert h
    revert n
    decide
  · unfold sixbitChar
    rw [List.getD_eq_default]
    · decide
    · simpa [b64Alphabet] using h

theorem sixbitVal_sixbitChar (n : Nat) (hn : n < 64) :
    sixbitVal (sixbitChar n) = some n := by
  revert hn
  revert n
  decide

theorem mapM_sixbitVal_map (s : List Nat) (h : ∀ x ∈ s, x < 64) :
    (s.map sixbitChar).mapM sixbitVal = some s := by
  induction s with
  | nil => rfl
  | cons a t ih =>
      simp only [List.map_cons, List.mapM_cons]
      rw [sixbitVal_sixbitChar a (h a (by simp)),
        ih (fun x hx => h x (by simp [hx]))]
      rfl

theorem dropOneEq_append_pad (cs : List Char) : dropOneEq (cs ++ ['=']) = cs := by
  simp [dropOneEq, List.reverse_append]

theorem dropOneEq_of_ne (cs : List Char) (h : '=' ∉ cs) : dropOneEq cs = cs := by
  unfold dropOneEq
  cases hr : cs.reverse with
  | nil => rfl
  | cons c rest =>
      have hc : c ∈ cs := by
        have hm : c ∈ cs.reverse := by rw [hr]; exact List.mem_cons_self c rest
        exact List.mem_reverse.mp hm
      have hcne : ¬(c = '=') := fun he => h (he ▸ hc)
      show (if c = '=' then rest.reverse else cs) = cs
      rw [if_neg hcne]

theorem dropTrailingEq_encode (cs : List Char) (h : '=' ∉ cs) (n : Nat) :
    dropTrailingEq (cs ++ b64PadChars n) = cs := by
  unfold dropTrailingEq b64PadChars
  split
  · rw [show cs ++ ['=', '='] = (cs ++ ['=']) ++ ['='] by simp,
      dropOneEq_append_pad, dropOneEq_append_pad]
  · split
    · rw [dropOneEq_append_pad, dropOneEq_of_ne cs h]
    · simp only [List.append_nil]
      rw [dropOneEq_of_ne cs h, dropOneEq_of_ne cs h]

theorem mem_b64PadChars {c : Char} {n : Nat} (h : c ∈ b64PadChars n) : c = '=' := by
  unfold b64PadChars at h
  split at h
  · simp only [List.mem_cons, List.not_mem_nil, or_false] at h
    rcases h with h | h <;> exact h
  · split at h
    · simp only [List.mem_cons, List.not_mem_nil, or_false] at h
      exact h
    · simp at h

/-- C10 round trip: decoding the encoding of any byte list gives the
byte list back. -/
theorem base64_roundtrip (b : List Nat) (hb : ∀ x ∈ b, x < 256) :
    (uint8ArrayToBase64 b).bind base64ToUint8Array = some b := by
  have hany : (b.any fun c => 255 < c) = false := by
    rw [List.any_eq_false]
    intro x hx
    have := hb x hx
    simp only [decide_eq_true_eq]
    omega
  have hpadmem : '=' ∉ (bytesToSixbits b).map sixbitChar := by
    intro hmem
    rcases List.mem_map.mp hmem with ⟨s, _, hs⟩
    exact sixbitChar_ne_pad s hs
  have hfil : ((bytesToSixbits b).map sixbitChar ++ b64PadChars b.length).filter
      (fun c => !(isB64Space c)) =
      (bytesToSixbits b).map sixbitChar ++ b64PadChars b.length := by
    rw [List.filter_eq_self]
    intro a ha
    rcases List.mem_append.mp ha with ha | ha
    · rcases List.mem_map.mp ha with ⟨s, _, hs⟩
      rw [← hs, isB64Space_sixbitChar]
      rfl
    · rw [mem_b64PadChars ha]
      rfl
  have hlen0 : ((bytesToSixbits b).map sixbitChar ++ b64PadChars b.length).length % 4
      = 0 := by
    simpa [List.length_append, List.length_map] using encode_length_mod_four b
  have hne1 : ((bytesToSixbits b).map sixbitChar).length % 4 ≠ 1 := by
    simpa [List.length_map] using bytesToSixbits_length_mod_ne_one b
  unfold uint8ArrayToBase64 btoa
  rw [hany]
  show base64ToUint8Array ((bytesToSixbits b).map sixbitChar ++ b64PadChars b.length)
      = some b
  unfold base64ToUint8Array atob
  simp only [hfil]
  rw [if_pos hlen0, dropTrailingEq_encode _ hpadmem, if_neg hne1,
    mapM_sixbitVal_map _ (bytesToSixbits_lt_64 b hb)]
  show some (sixbitsToBytes (bytesToSixbits b)) = some b
  rw [sixbitsToBytes_bytesToSixbits b hb]

/-- Fuel-driven helper for the floor base-2 logarithm (structural
recursion, so that concrete values reduce in the kernel). -/
def log2Fuel : Nat → Nat → Nat
  | 0, _ => 0
  | fuel + 1, n => if 2 ≤ n then log2Fuel fuel (n / 2) + 1 else 0

/-- Floor of the base-2 logarithm, modelling the JavaScript
`Math.floor(Math.log2 n)` (exact on the integer ranges involved). -/
def floorLog2 (n : Nat) : Nat := log2Fuel n n

theorem log2Fuel_bracket : ∀ (fuel n : Nat), n ≤ fuel → 1 ≤ n →
    2 ^ log2Fuel fuel n ≤ n ∧ n < 2 ^ (log2Fuel fuel n + 1)
  | 0, n, hf, h1 => by omega
  | fuel + 1, n, hf, h1 => by
      by_cases h2 : 2 ≤ n
      · have hrec := log2Fuel_bracket fuel (n / 2) (by omega) (by omega)
        simp only [log2Fuel, if_pos h2]
        rcases hrec with ⟨hl, hr⟩
        constructor
        · rw [pow_succ]
          omega
        · rw [pow_succ] at hr
          rw [pow_succ, pow_succ]
          omega
      · have hn1 : n = 1 := by omega
        subst hn1
        simp [log2Fuel]

/-- Two-sided characterization: `2 ^ floorLog2 n ≤ n < 2 ^ (floorLog2 n + 1)`
for positive `n`. -/
theorem floorLog2_bracket (n : Nat) (h1 : 1 ≤ n) :
    2 ^ floorLog2 n ≤ n ∧ n < 2 ^ (floorLog2 n + 1) :=
  log2Fuel_bracket n n (Nat.le_refl n) h1

/-- Embedding of `calcPaddedLen` (src/src/lib/types.ts): the NIP-44
padded length of a plaintext length. The source throws
`expected positive integer` for a length below 1, modelled as `none`. -/
def calcPaddedLen (len : Nat) : Option Nat :=
  if len < 1 then none
  else if len ≤ 32 then some 32
  else
    let nextPower := 2 ^ (floorLog2 (len - 1) + 1)
    let chunk := if nextPower ≤ 256 then 32 else nextPower / 8
    some (chunk * ((len - 1) / chunk + 1))

/-- Distinct failure kinds of the decryption path of
src/src/lib/types.ts, one constructor per distinct `throw` of the
source. `expectedPositiveInteger` is `calcPaddedLen`'s own guard,
`invalidAad` is the 32-byte AAD guard of `hmacAad`, and `rangeError`
is the `RangeError` of `DataView.getUint16` on a buffer shorter than
2 bytes; the others are the spec's `DecryptionFailure` subkinds. -/
inductive DecryptError
  | invalidPayloadLength
  | unknownVersion
  | invalidBase64
  | invalidMac
  | invalidPadding
  | expectedPositiveInteger
  | invalidAad
  | rangeError
  deriving DecidableEq, Repr

theorem calcPaddedLen_isSome (len : Nat) (h : 1 ≤ len) :
    ∃ pl, calcPaddedLen len = some pl := by
  unfold calcPaddedLen
  rw [if_neg (by omega)]
  by_cases h32 : len ≤ 32
  · rw [if_pos h32]
    exact ⟨32, rfl⟩
  · rw [if_neg h32]
    exact ⟨_, rfl⟩

/-- Embedding of `unpadBytes` (src/src/lib/types.ts). The first two
bytes are read big-endian by `DataView.getUint16(0)` (a `RangeError`
on a buffer shorter than 2 bytes); the condition chain mirrors the
short-circuit order of the source's `||`, under which `calcPaddedLen`
is only invoked once the length checks have passed. -/
def unpadBytes (padded : List Nat) : Except DecryptError (List Nat) :=
  match padded with
  | b0 :: b1 :: rest =>
      let unpaddedLen := b0 * 256 + b1
      let unpadded := rest.take unpaddedLen
      if unpaddedLen < 1 ∨ 65535 < unpaddedLen ∨ unpadded.length ≠ unpaddedLen then
        .error .invalidPadding
      else
        match calcPaddedLen unpaddedLen with
        | none => .error .expectedPositiveInteger
        | some pl =>
            if padded.length ≠ 2 + pl then .error .invalidPadding
            else .ok unpadded
  | _ => .error .rangeError

/-- Check that the unused trailing bits of a final partial base64
group are zero, as the strict `@scure/base` codec requires. -/
def zeroTrailBits (sixes : List Nat) : Bool :=
  if sixes.length % 4 = 2 then (sixes.getLast?.getD 0) % 16 == 0
  else if sixes.length % 4 = 3 then (sixes.getLast?.getD 0) % 4 == 0
  else true

/-- Strict base64 decoding as performed by the external `@scure/base`
codec that `decodePayload` uses: the length must be a multiple of 4,
padding may only be trailing, every remaining character must be in the
alphabet, and unused trailing bits must be zero. -/
def scureBase64Decode (s : List Char) : Option (List Nat) :=
  if s.length % 4 ≠ 0 then none
  else
    let t := dropTrailingEq s
    match t.mapM sixbitVal with
    | none => none
    | some sixes =>
        if sixes.length % 4 = 1 then none
        else if zeroTrailBits sixes then some (sixbitsToBytes sixes) else none

/-- Nonce / ciphertext / MAC slices produced by `decodePayload`. -/
structure DecodedPayload where
  nonce : List Nat
  ciphertext : List Nat
  mac : List Nat
  deriving DecidableEq, Repr

/-- Embedding of `decodePayload` (src/src/lib/types.ts): validation
order is payload length in characters, the `#` future-version marker,
strict base64 decoding, decoded length in bytes, then the version
byte, after which the nonce, ciphertext and MAC slices are cut. -/
def decodePayload (payload : List Char) : Except DecryptError DecodedPayload :=
  let plen := payload.length
  if plen < 132 ∨ 87472 < plen then .error .invalidPayloadLength
  else if payload.head? = some '#' then .error .unknownVersion
  else
    match scureBase64Decode payload with
    | none => .error .invalidBase64
    | some data =>
        let dlen := data.length
        if dlen < 99 ∨ 65603 < dlen then .error .invalidPayloadLength
        else if data.head? ≠ some 2 then .error .unknownVersion
        else .ok ⟨(data.drop 1).take 32, (data.drop 33).take (dlen - 65),
          data.drop (dlen - 32)⟩

/-- External cryptographic primitives from the `@noble` and
`nostr-tools` libraries. They are imports, not code of this
repository, so the embedding is parametric in them. -/
structure NoblePrims where
  hkdfExpandSha256 : List Nat → List Nat → Nat → List Nat
  hmacSha256 : List Nat → List Nat → List Nat
  chacha20 : List Nat → List Nat → List Nat → List Nat
  getConversationKey : List Nat → String → List Nat

/-- Key material triple derived in `getMessageKeys`. -/
structure MessageKeys where
  chacha_key : List Nat
  chacha_nonce : List Nat
  hmac_key : List Nat

/-- Embedding of `getMessageKeys` (src/src/lib/types.ts): 76 bytes of
HKDF-SHA256 expansion of the conversation key with the nonce as info,
split as 32-byte cipher key, 12-byte cipher nonce, 32-byte MAC key. -/
def getMessageKeys (P : NoblePrims) (conversationKey nonce : List Nat) :
    MessageKeys :=
  let keys := P.hkdfExpandSha256 conversationKey nonce 76
  ⟨keys.take 32, (keys.drop 32).take 12, (keys.drop 44).take 32⟩

/-- Embedding of `hmacAad` (src/src/lib/types.ts): guard that the AAD
is 32 bytes, then HMAC-SHA256 over AAD concatenated with the message. -/
def hmacAad (P : NoblePrims) (key message aad : List Nat) :
    Except DecryptError (List Nat) :=
  if aad.length ≠ 32 then .error .invalidAad
  else .ok (P.hmacSha256 key (aad ++ message))

/-- Embedding of `decryptNip44ToBytes` (src/src/lib/types.ts): decode
the payload, derive the message keys, verify the MAC before any
decryption, then ChaCha20-decrypt and unpad. -/
def decryptNip44ToBytes (P : NoblePrims) (payload : List Char)
    (conversationKey : List Nat) : Except DecryptError (List Nat) :=
  match decodePayload payload with
  | .error e => .error e
  | .ok d =>
      let keys := getMessageKeys P conversationKey d.nonce
      match hmacAad P keys.hmac_key d.ciphertext d.nonce with
      | .error e => .error e
      | .ok calculatedMac =>
          if calculatedMac ≠ d.mac then .error .invalidMac
          else unpadBytes (P.chacha20 keys.chacha_key keys.chacha_nonce d.ciphertext)

/-- Embedding of `decryptChunkBinary` (src/src/lib/types.ts): derive
the conversation key for the self-encryption key pair, then run the
NIP-44 decryptor. -/
def decryptChunkBinary (P : NoblePrims) (ciphertext : List Char)
    (secretKey : List Nat) (pubkey : String) : Except DecryptError (List Nat) :=
  decryptNip44ToBytes P ciphertext (P.getConversationKey secretKey pubkey)

/-- C10: the base64 helper pair used to decode chunk payloads is a
round trip — for every byte array `b`, `base64ToUint8Array` applied to
`uint8ArrayToBase64 b` returns a byte array equal to `b`. -/
theorem c10_base64_roundtrip (b : List Nat) (hb : ∀ x ∈ b, x < 256) :
    (uint8ArrayToBase64 b).bind base64ToUint8Array = some b :=
  base64_roundtrip b hb

/-- Witness for C10 at the concrete byte array `[104, 105, 255, 0]`. -/
theorem c10_base64_roundtrip_witness :
    (uint8ArrayToBase64 [104, 105, 255, 0]).bind base64ToUint8Array
      = some [104, 105, 255, 0] :=
  c10_base64_roundtrip [104, 105, 255, 0] (by decide)

/-- C1 counterexample: the spec's padding table demands
`paddedLength 500 = 768`, but the code's `calcPaddedLen 500` is 512. -/
theorem c1_calcPaddedLen_500_counterexample :
    calcPaddedLen 500 = some 512 ∧ calcPaddedLen 500 ≠ some 768 := by decide

/-- C1 (amended): the padding table holds with the corrected value
`paddedLength 500 = 512`; in general the padded length is 32 for
`n ≤ 32`, and otherwise `bucket * ((n-1)/bucket + 1)` where `bucket`
is `p / 8` if the least power of two `p ≥ n` exceeds 256, else 32. -/
theorem c1_calcPaddedLen_spec :
    calcPaddedLen 1 = some 32 ∧ calcPaddedLen 32 = some 32 ∧
    calcPaddedLen 33 = some 64 ∧ calcPaddedLen 500 = some 512 ∧
    (∀ n, 1 ≤ n → n ≤ 32 → calcPaddedLen n = some 32) ∧
    (∀ n, 32 < n → ∃ p, (∃ k, p = 2 ^ k) ∧ n ≤ p ∧
      (∀ q, (∃ k, q = 2 ^ k) → n ≤ q → p ≤ q) ∧
      calcPaddedLen n =
        some ((if 256 < p then p / 8 else 32) *
          ((n - 1) / (if 256 < p then p / 8 else 32) + 1))) := by
  refine ⟨by decide, by decide, by decide, by decide, ?_, ?_⟩
  · intro n h1 h32
    unfold calcPaddedLen
    rw [if_neg (by omega), if_pos h32]
  · intro n hn
    have hb := floorLog2_bracket (n - 1) (by omega)
    refine ⟨2 ^ (floorLog2 (n - 1) + 1), ⟨floorLog2 (n - 1) + 1, rfl⟩, by omega, ?_, ?_⟩
    · rintro q ⟨j, rfl⟩ hq
      by_cases hj : j ≤ floorLog2 (n - 1)
      · exfalso
        have hle : (2:Nat) ^ j ≤ 2 ^ floorLog2 (n - 1) :=
          Nat.pow_le_pow_right (by omega) hj
        omega
      · exact Nat.pow_le_pow_right (by omega) (by omega)
    · unfold calcPaddedLen
      rw [if_neg (by omega), if_neg (by omega)]
      simp only []
      rcases le_or_lt (2 ^ (floorLog2 (n - 1) + 1)) 256 with h | h
      · rw [if_pos h, if_neg (not_lt.mpr h)]
      · rw [if_neg (not_le.mpr h), if_pos h]

/-- Witness for C1's amended theorem at the concrete lengths 20
and 300. -/
theorem c1_calcPaddedLen_spec_witness :
    calcPaddedLen 20 = some 32 ∧ calcPaddedLen 300 = some 320 := by
  constructor
  · exact c1_calcPaddedLen_spec.2.2.2.2.1 20 (by decide) (by decide)
  · obtain ⟨p, hpow, hnp, hmin, heq⟩ := c1_calcPaddedLen_spec.2.2.2.2.2 300 (by decide)
    have hp : p = 512 := by
      have h1 : p ≤ 512 := hmin 512 ⟨9, by decide⟩ (by decide)
      rcases hpow with ⟨k, rfl⟩
      have h2 : 8 < k := by
        by_contra hk
        have : (2:Nat) ^ k ≤ 2 ^ 8 := Nat.pow_le_pow_right (by decide) (by omega)
        omega
      have h3 : (2:Nat) ^ 9 ≤ 2 ^ k := Nat.pow_le_pow_right (by decide) (by omega)
      omega
    rw [heq, hp]
    decide

theorem decodePayload_error_cases (payload : List Char) (e : DecryptError)
    (h : decodePayload payload = .error e) :
    e = .invalidPayloadLength ∨ e = .unknownVersion ∨ e = .invalidBase64 := by
  unfold decodePayload at h
  simp only [] at h
  split at h
  · injection h with h
    exact Or.inl h.symm
  · split at h
    · injection h with h
      exact Or.inr (Or.inl h.symm)
    · split at h
      · injection h with h
        exact Or.inr (Or.inr h.symm)
      · split at h
        · injection h with h
          exact Or.inl h.symm
        · split at h
          · injection h with h
            exact Or.inr (Or.inl h.symm)
          · simp at h

theorem decodePayload_ok_shape (payload : List Char) (d : DecodedPayload)
    (h : decodePayload payload = .ok d) :
    d.nonce.length = 32 ∧ 34 ≤ d.ciphertext.length ∧ d.mac.length = 32 := by
  unfold decodePayload at h
  simp only [] at h
  split at h
  · simp at h
  · split at h
    · simp at h
    · split at h
      · simp at h
      · next data heq =>
          split at h
          · simp at h
          · next hdlen =>
              split at h
              · simp at h
              · push_neg at hdlen
                injection h with h
                subst h
                refine ⟨?_, ?_, ?_⟩ <;>
                  simp only [List.length_take, List.length_drop] <;> omega

theorem unpadBytes_error_cases (padded : List Nat) (h2 : 2 ≤ padded.length)
    (e : DecryptError) (h : unpadBytes padded = .error e) :
    e = .invalidPadding := by
  cases padded with
  | nil => simp at h2
  | cons b0 tl =>
      cases tl with
      | nil => simp at h2
      | cons b1 rest =>
          unfold unpadBytes at h
          simp only [] at h
          split at h
          · injection h with h
            exact h.symm
          · next hc =>
              push_neg at hc
              split at h
              · next heq =>
                  obtain ⟨pl, hpl⟩ :=
                    calcPaddedLen_isSome (b0 * 256 + b1) (by omega)
                  rw [heq] at hpl
                  cases hpl
              · split at h
                · injection h with h
                  exact h.symm
                · simp at h

theorem decrypt_decode_error (P : NoblePrims) (payload : List Char)
    (ck : List Nat) (e : DecryptError) (h : decodePayload payload = .error e) :
    decryptNip44ToBytes P payload ck = .error e := by
  simp only [decryptNip44ToBytes, h]

/-- C3: on any padded buffer (with the two bytes `DataView.getUint16`
reads), unpad interprets the first two bytes as a big-endian 16-bit
length `L` and succeeds with exactly the following `L` bytes iff
`1 ≤ L ≤ 65535`, the extracted slice has length `L`, and the total
buffer length is `2 + paddedLength L`; every failure is
`invalidPadding`, and every success returns that `L`-byte slice. -/
theorem c3_unpadBytes_spec (b0 b1 : Nat) (rest : List Nat)
    (hb0 : b0 < 256) (hb1 : b1 < 256) :
    (unpadBytes (b0 :: b1 :: rest) = .ok (rest.take (b0 * 256 + b1)) ↔
      (1 ≤ b0 * 256 + b1 ∧ b0 * 256 + b1 ≤ 65535 ∧
        (rest.take (b0 * 256 + b1)).length = b0 * 256 + b1 ∧
        ∃ pl, calcPaddedLen (b0 * 256 + b1) = some pl ∧
          (b0 :: b1 :: rest).length = 2 + pl)) ∧
    (∀ e, unpadBytes (b0 :: b1 :: rest) = .error e → e = DecryptError.invalidPadding) ∧
    (∀ out, unpadBytes (b0 :: b1 :: rest) = .ok out →
      out = rest.take (b0 * 256 + b1)) := by
  unfold unpadBytes
  simp only []
  split
  · next hc1 =>
      refine ⟨⟨?_, ?_⟩, ?_, ?_⟩
      · intro h
        simp at h
      · intro h
        obtain ⟨h1, h2, h3, _⟩ := h
        exact absurd hc1 (by push_neg; exact ⟨by omega, by omega, h3⟩)
      · intro e he
        injection he with h
        exact h.symm
      · intro out hout
        simp at hout
  · next hc1 =>
      push_neg at hc1
      obtain ⟨h1, h2, h3⟩ := hc1
      split
      · next heq =>
          obtain ⟨pl, hpl⟩ := calcPaddedLen_isSome (b0 * 256 + b1) (by omega)
          rw [heq] at hpl
          cases hpl
      · next pl heq =>
          split
          · next hlen =>
              refine ⟨⟨?_, ?_⟩, ?_, ?_⟩
              · intro h
                simp at h
              · intro h
                obtain ⟨_, _, _, pl2, hpl2, hlen2⟩ := h
                rw [heq] at hpl2
                cases hpl2
                exact absurd hlen2 hlen
              · intro e he
                injection he with h
                exact h.symm
              · intro out hout
                simp at hout
          · next hlen =>
              push_neg at hlen
              refine ⟨⟨?_, ?_⟩, ?_, ?_⟩
              · intro _
                exact ⟨by omega, by omega, h3, pl, heq, hlen⟩
              · intro _
                rfl
              · intro e he
                simp at he
              · intro out hout
                injection hout with h
                exact h.symm

/-- Witness for C3: a 34-byte buffer declaring plaintext length 1
unPads to its single plaintext byte. -/
theorem c3_unpadBytes_witness :
    unpadBytes (0 :: 1 :: 7 :: List.replicate 31 0) = .ok [7] := by
  have h := (c3_unpadBytes_spec 0 1 (7 :: List.replicate 31 0)
      (by decide) (by decide)).1.mpr
    ⟨by decide, by decide, by decide, 32, by decide, by decide⟩
  simpa using h

/-- C2: decryption fails with the specific failure of the first
failing validation step, in the specified order — payload character
length, `#` marker, base64, decoded byte length, version byte, MAC —
and the failure is always one of the five specified subkinds, never a
generic error (given that ChaCha20 preserves length); in particular,
whenever the stored MAC differs from HMAC-SHA256 of the MAC key over
nonce and ciphertext, the result is `invalidMac` and never a
plaintext. Parametric in the external crypto primitives. -/
theorem c2_decrypt_error_order :
    (∀ (P : NoblePrims) (payload : List Char) (ck : List Nat),
      (payload.length < 132 ∨ 87472 < payload.length) →
      decryptNip44ToBytes P payload ck = .error .invalidPayloadLength) ∧
    (∀ (P : NoblePrims) (payload : List Char) (ck : List Nat),
      ¬(payload.length < 132 ∨ 87472 < payload.length) →
      payload.head? = some '#' →
      decryptNip44ToBytes P payload ck = .error .unknownVersion) ∧
    (∀ (P : NoblePrims) (payload : List Char) (ck : List Nat),
      ¬(payload.length < 132 ∨ 87472 < payload.length) →
      ¬(payload.head? = some '#') →
      scureBase64Decode payload = none →
      decryptNip44ToBytes P payload ck = .error .invalidBase64) ∧
    (∀ (P : NoblePrims) (payload : List Char) (ck : List Nat) (data : List Nat),
      ¬(payload.length < 132 ∨ 87472 < payload.length) →
      ¬(payload.head? = some '#') →
      scureBase64Decode payload = some data →
      (data.length < 99 ∨ 65603 < data.length) →
      decryptNip44ToBytes P payload ck = .error .invalidPayloadLength) ∧
    (∀ (P : NoblePrims) (payload : List Char) (ck : List Nat) (data : List Nat),
      ¬(payload.length < 132 ∨ 87472 < payload.length) →
      ¬(payload.head? = some '#') →
      scureBase64Decode payload = some data →
      ¬(data.length < 99 ∨ 65603 < data.length) →
      ¬(data.head? = some 2) →
      decryptNip44ToBytes P payload ck = .error .unknownVersion) ∧
    (∀ (P : NoblePrims) (payload : List Char) (ck : List Nat) (d : DecodedPayload),
      decodePayload payload = .ok d →
      d.mac ≠ P.hmacSha256 (getMessageKeys P ck d.nonce).hmac_key
        (d.nonce ++ d.ciphertext) →
      decryptNip44ToBytes P payload ck = .error .invalidMac) ∧
    (∀ (P : NoblePrims) (payload : List Char) (ck : List Nat),
      (∀ k n dta, (P.chacha20 k n dta).length = dta.length) →
      ∀ e, decryptNip44ToBytes P payload ck = .error e →
        (e = DecryptError.invalidPayloadLength ∨ e = DecryptError.unknownVersion ∨
         e = DecryptError.invalidBase64 ∨ e = DecryptError.invalidMac ∨
         e = DecryptError.invalidPadding)) := by
  have hdec1 : ∀ payload : List Char,
      (payload.length < 132 ∨ 87472 < payload.length) →
      decodePayload payload = .error .invalidPayloadLength := by
    intro payload hc
    unfold decodePayload
    rw [if_pos hc]
  have hdec2 : ∀ payload : List Char,
      ¬(payload.length < 132 ∨ 87472 < payload.length) →
      payload.head? = some '#' →
      decodePayload payload = .error .unknownVersion := by
    intro payload hc hh
    unfold decodePayload
    rw [if_neg hc, if_pos hh]
  have hdec3 : ∀ payload : List Char,
      ¬(payload.length < 132 ∨ 87472 < payload.length) →
      ¬(payload.head? = some '#') →
      scureBase64Decode payload = none →
      decodePayload payload = .error .invalidBase64 := by
    intro payload hc hh hb
    simp only [decodePayload, hb]
    rw [if_neg hc, if_neg hh]
  have hdec4 : ∀ (payload : List Char) (data : List Nat),
      ¬(payload.length < 132 ∨ 87472 < payload.length) →
      ¬(payload.head? = some '#') →
      scureBase64Decode payload = some data →
      (data.length < 99 ∨ 65603 < data.length) →
      decodePayload payload = .error .invalidPayloadLength := by
    intro payload data hc hh hb hdl
    simp only [decodePayload, hb]
    rw [if_neg hc, if_neg hh, if_pos hdl]
  have hdec5 : ∀ (payload : List Char) (data : List Nat),
      ¬(payload.length < 132 ∨ 87472 < payload.length) →
      ¬(payload.head? = some '#') →
      scureBase64Decode payload = some data →
      ¬(data.length < 99 ∨ 65603 < data.length) →
      ¬(data.head? = some 2) →
      decodePayload payload = .error .unknownVersion := by
    intro payload data hc hh hb hdl hv
    simp only [decodePayload, hb]
    rw [if_neg hc, if_neg hh, if_neg hdl, if_pos hv]
  refine ⟨?_, ?_, ?_, ?_, ?_, ?_, ?_⟩
  · intro P payload ck hc
    exact decrypt_decode_error P payload ck _ (hdec1 payload hc)
  · intro P payload ck hc hh
    exact decrypt_decode_error P payload ck _ (hdec2 payload hc hh)
  · intro P payload ck hc hh hb
    exact decrypt_decode_error P payload ck _ (hdec3 payload hc hh hb)
  · intro P payload ck data hc hh hb hdl
    exact decrypt_decode_error P payload ck _ (hdec4 payload data hc hh hb hdl)
  · intro P payload ck data hc hh hb hdl hv
    exact decrypt_decode_error P payload ck _ (hdec5 payload data hc hh hb hdl hv)
  · intro P payload ck d hok hne
    obtain ⟨hn32, hct, hm⟩ := decodePayload_ok_shape payload d hok
    have hmac : hmacAad P (getMessageKeys P ck d.nonce).hmac_key d.ciphertext
        d.nonce = .ok (P.hmacSha256 (getMessageKeys P ck d.nonce).hmac_key
          (d.nonce ++ d.ciphertext)) := by
      unfold hmacAad
      rw [if_neg (by simp [hn32])]
    simp only [decryptNip44ToBytes, hok, hmac]
    rw [if_pos (Ne.symm hne)]
  · intro P payload ck hlen e h
    cases hdec : decodePayload payload with
    | error e2 =>
        rw [decrypt_decode_error P payload ck e2 hdec] at h
        injection h with h
        subst h
        rcases decodePayload_error_cases payload e2 hdec with h1 | h1 | h1
        · exact Or.inl h1
        · exact Or.inr (Or.inl h1)
        · exact Or.inr (Or.inr (Or.inl h1))
    | ok d =>
        obtain ⟨hn32, hct, hm⟩ := decodePayload_ok_shape payload d hdec
        have hmac : hmacAad P (getMessageKeys P ck d.nonce).hmac_key d.ciphertext
            d.nonce = .ok (P.hmacSha256 (getMessageKeys P ck d.nonce).hmac_key
              (d.nonce ++ d.ciphertext)) := by
          unfold hmacAad
          rw [if_neg (by simp [hn32])]
        simp only [decryptNip44ToBytes, hdec, hmac] at h
        split at h
        · injection h with h
          subst h
          exact Or.inr (Or.inr (Or.inr (Or.inl rfl)))
        · have h2 : 2 ≤ (P.chacha20 (getMessageKeys P ck d.nonce).chacha_key
              (getMessageKeys P ck d.nonce).chacha_nonce d.ciphertext).length := by
            rw [hlen]
            omega
          have := unpadBytes_error_cases _ h2 e h
          exact Or.inr (Or.inr (Or.inr (Or.inr this)))

/-- Concrete primitive instantiation for witnesses: HKDF expands to
zeros, HMAC returns 32 ones, ChaCha20 is the identity on its data. -/
def witnessPrims : NoblePrims :=
  ⟨fun _ _ n => List.replicate n 0, fun _ _ => List.replicate 32 1,
   fun _ _ dta => dta, fun _ _ => []⟩

/-- Concrete payload for witnesses: canonical base64 of a 99-byte
buffer whose version byte is 2 and whose other bytes are zero. -/
def witnessPayload : List Char :=
  (bytesToSixbits (2 :: List.replicate 98 0)).map sixbitChar ++ b64PadChars 99

set_option maxRecDepth 4000 in
/-- Witness for C2: under the witness primitives the stored MAC
(zeros) differs from the computed MAC (ones), so decryption of the
concrete payload reports `invalidMac`. -/
theorem c2_decrypt_error_order_witness :
    decryptNip44ToBytes witnessPrims witnessPayload [] = .error .invalidMac :=
  c2_decrypt_error_order.2.2.2.2.2.1 witnessPrims witnessPayload []
    ⟨List.replicate 32 0, List.replicate 34 0, List.replicate 32 0⟩
    (by rfl) (by decide)

/-- A nostr event as the relay pool delivers it: id, tags, content,
creation timestamp. -/
structure NostrEvent where
  id : String
  tags : List (List String)
  content : String
  created_at : Int
  deriving DecidableEq, Repr

/-- Whitespace skipped by JavaScript `parseInt`. -/
def isJsSpace (c : Char) : Bool :=
  c == ' ' || c == Char.ofNat 9 || c == Char.ofNat 10 ||
    c == Char.ofNat 11 || c == Char.ofNat 12 || c == Char.ofNat 13

/-- Longest leading run of decimal digits, `none` when empty (the
`NaN` case of `parseInt`). -/
def parseDigits (cs : List Char) : Option Nat :=
  let ds := cs.takeWhile (fun c => c.isDigit)
  if ds.isEmpty then none
  else some (ds.foldl (fun acc c => acc * 10 + (c.toNat - 48)) 0)

/-- Model of JavaScript `parseInt(s, 10)`: skip leading whitespace,
read an optional sign, then the longest leading digit run. -/
def jsParseInt (s : String) : Option Int :=
  match s.data.dropWhile isJsSpace with
  | '-' :: rest => (parseDigits rest).map (fun n => -(n : Int))
  | '+' :: rest => (parseDigits rest).map (fun n => (n : Int))
  | rest => (parseDigits rest).map (fun n => (n : Int))

/-- The `d`-tag fallback of `parseChunkIndexFromTags`: take the `d`
tag's value (a missing or empty value is falsy in the source and gives
`null`), split on `:`, and parse the final segment. -/
def parseDTagIndex (tags : List (List String)) : Option Int :=
  match (tags.find? (fun t => t.head? = some "d")).bind (fun t => t[1]?) with
  | none => none
  | some dTag =>
      if dTag = "" then none
      else
        match (dTag.splitOn ":").getLast? with
        | none => none
        | some lastPart => jsParseInt lastPart

/-- Embedding of `parseChunkIndexFromTags` (src/src/lib/nostr.ts):
prefer an explicit `chunk` tag whose value is nonempty and parses as
an integer; otherwise fall back to the trailing segment of the `d`
tag. -/
def parseChunkIndexFromTags (tags : List (List String)) : Option Int :=
  match (tags.find? (fun t => t.head? = some "chunk")).bind (fun t => t[1]?) with
  | some v =>
      if v = "" then parseDTagIndex tags
      else
        match jsParseInt v with
        | some i => some i
        | none => parseDTagIndex tags
  | none => parseDTagIndex tags

/-- Chunk entry of the collector's map (interface `ChunkEvent` of
src/src/lib/nostr.ts). -/
structure ChunkEvent where
  index : Int
  content : String
  encryption : String
  deriving DecidableEq, Repr

/-- State threaded through `fetchChunks`' `onevent` handler: seen
event ids, and the chunk map in insertion order (the JavaScript `Map`
keyed by chunk index). -/
structure CollectState where
  seenEventIds : List String
  chunksByIndex : List ChunkEvent
  deriving DecidableEq, Repr

/-- The encryption tag value of a chunk record, where the source's
`encryptionTag?.[1] || 'none'` turns a missing or empty (falsy) value
into `none`. -/
def chunkEncryption (e : NostrEvent) : String :=
  match (e.tags.find? (fun t => t.head? = some "encryption")).bind
      (fun t => t[1]?) with
  | some v => if v = "" then "none" else v
  | none => "none"

/-- Embedding of the `onevent` handler of `fetchChunks`
(src/src/lib/nostr.ts): skip records whose event id was already seen,
parse a chunk index (skip on failure), read the encryption tag, and
insert only when the index is not yet present. -/
def processEvent (st : CollectState) (e : NostrEvent) : CollectState :=
  if e.id ∈ st.seenEventIds then st
  else
    match parseChunkIndexFromTags e.tags with
    | none => ⟨e.id :: st.seenEventIds, st.chunksByIndex⟩
    | some index =>
        if st.chunksByIndex.any (fun c => c.index = index) then
          ⟨e.id :: st.seenEventIds, st.chunksByIndex⟩
        else
          ⟨e.id :: st.seenEventIds,
            st.chunksByIndex ++ [⟨index, e.content, chunkEncryption e⟩]⟩

/-- The comparison `(a, b) => a.index - b.index` of the final sort. -/
def chunkLe (a b : ChunkEvent) : Prop := a.index ≤ b.index

instance : DecidableRel chunkLe := fun a b => Int.decLe a.index b.index

instance : IsTotal ChunkEvent chunkLe := ⟨fun a b => Int.le_total a.index b.index⟩

instance : IsTrans ChunkEvent chunkLe := ⟨fun _ _ _ h1 h2 => le_trans h1 h2⟩

/-- Pure collection core of `fetchChunks` (src/src/lib/nostr.ts):
process the incoming records in arrival order starting from an empty
cache entry, then return the chunks sorted ascending by index. -/
def collectChunks (events : List NostrEvent) : List ChunkEvent :=
  List.insertionSort chunkLe (events.foldl processEvent ⟨[], []⟩).chunksByIndex

/-- Invariant of the collector state: chunk indices are distinct, the
chunk count never exceeds the seen-id count, and the seen ids are
distinct ids of processed records. -/
def collectInv (ids : List String) (st : CollectState) : Prop :=
  (st.chunksByIndex.map (fun c => c.index)).Nodup ∧
  st.chunksByIndex.length ≤ st.seenEventIds.length ∧
  st.seenEventIds.Nodup ∧ (∀ i ∈ st.seenEventIds, i ∈ ids)

theorem processEvent_inv (ids : List String) (st : CollectState) (e : NostrEvent)
    (h : collectInv ids st) (he : e.id ∈ ids) :
    collectInv ids (processEvent st e) := by
  obtain ⟨h1, h2, h3, h4⟩ := h
  unfold processEvent
  split
  · exact ⟨h1, h2, h3, h4⟩
  · next hnot =>
      have h3' : (e.id :: st.seenEventIds).Nodup := by
        simp only [List.nodup_cons]
        exact ⟨hnot, h3⟩
      have h4' : ∀ i ∈ e.id :: st.seenEventIds, i ∈ ids := by
        intro i hi
        rcases List.mem_cons.mp hi with hi | hi
        · exact hi ▸ he
        · exact h4 i hi
      split
      · exact ⟨h1, by simp only [List.length_cons]; omega, h3', h4'⟩
      · next index heq =>
          split
          · exact ⟨h1, by simp only [List.length_cons]; omega, h3', h4'⟩
          · next hany =>
              refine ⟨?_, ?_, h3', h4'⟩
              · simp only [List.map_append, List.map_cons, List.map_nil,
                  List.nodup_append]
                refine ⟨h1, List.nodup_singleton _, ?_⟩
                intro a ha hb
                simp only [List.mem_singleton] at hb
                subst hb
                rcases List.mem_map.mp ha with ⟨c, hc, hidx⟩
                exact hany (by
                  simp only [List.any_eq_true]
                  exact ⟨c, hc, by simp [hidx]⟩)
              · simp only [List.length_append, List.length_cons]
                simp only [List.length_nil]
                omega

theorem foldl_processEvent_inv :
    ∀ (events : List NostrEvent) (st : CollectState) (ids : List String),
      collectInv ids st → (∀ e ∈ events, e.id ∈ ids) →
      collectInv ids (events.foldl processEvent st)
  | [], _, _, h, _ => h
  | e :: rest, st, ids, h, hm => by
      simp only [List.foldl_cons]
      exact foldl_processEvent_inv rest _ ids
        (processEvent_inv ids st e h (hm e (by simp)))
        (fun e2 he2 => hm e2 (by simp [he2]))

/-- C4: for every sequence of incoming chunk records, the collection
returns at most one record per index (strictly increasing indices,
hence also sorted ascending), never counts a duplicate record id
twice (the result length is bounded by the number of distinct ids),
and does not guarantee `length = totalChunks`: the spec's example
`(a,0),(b,1),(b,1),(c,2),(d,4)` with `total_chunks = 5` yields
exactly 4 chunks with indices `[0, 1, 2, 4]`. -/
theorem c4_collectChunks_spec :
    (∀ events : List NostrEvent,
      (collectChunks events).Pairwise (fun a b => a.index < b.index) ∧
      (collectChunks events).length ≤ ((events.map (fun e => e.id)).dedup).length) ∧
    ((collectChunks
        [⟨"a", [["chunk", "0"]], "c0", 0⟩, ⟨"b", [["chunk", "1"]], "c1", 0⟩,
         ⟨"b", [["chunk", "1"]], "c1", 0⟩, ⟨"c", [["chunk", "2"]], "c2", 0⟩,
         ⟨"d", [["chunk", "4"]], "c4", 0⟩]).map (fun c => c.index)
        = [0, 1, 2, 4] ∧
     (collectChunks
        [⟨"a", [["chunk", "0"]], "c0", 0⟩, ⟨"b", [["chunk", "1"]], "c1", 0⟩,
         ⟨"b", [["chunk", "1"]], "c1", 0⟩, ⟨"c", [["chunk", "2"]], "c2", 0⟩,
         ⟨"d", [["chunk", "4"]], "c4", 0⟩]).length = 4 ∧
     (collectChunks
        [⟨"a", [["chunk", "0"]], "c0", 0⟩, ⟨"b", [["chunk", "1"]], "c1", 0⟩,
         ⟨"b", [["chunk", "1"]], "c1", 0⟩, ⟨"c", [["chunk", "2"]], "c2", 0⟩,
         ⟨"d", [["chunk", "4"]], "c4", 0⟩]).length ≠ 5) := by
  constructor
  · intro events
    obtain ⟨h1, h2, h3, h4⟩ := foldl_processEvent_inv events ⟨[], []⟩
      (events.map (fun e => e.id)) ⟨by simp, by simp, by simp, by simp⟩
      (fun e he => List.mem_map_of_mem _ he)
    have hperm : List.Perm (collectChunks events)
        (events.foldl processEvent ⟨[], []⟩).chunksByIndex :=
      List.perm_insertionSort chunkLe _
    constructor
    · have hsorted : (collectChunks events).Pairwise chunkLe :=
        List.sorted_insertionSort chunkLe _
      have hnd : ((collectChunks events).map (fun c => c.index)).Nodup :=
        ((hperm.map (fun c => c.index)).nodup_iff).mpr h1
      have hpne : (collectChunks events).Pairwise
          (fun a b => a.index ≠ b.index) := List.pairwise_map.mp hnd
      exact List.Pairwise.imp (fun h => lt_of_le_of_ne h.1 h.2) (hsorted.and hpne)
    · have hlen := hperm.length_eq
      have hsub := (List.subperm_of_subset h3
        (fun a ha => List.mem_dedup.mpr (h4 a ha))).length_le
      omega
  · exact ⟨by decide, by decide, by decide⟩

/-- Failure kinds of the download/assembly paths: the chunk-count
check (`Missing chunks: got X/Y`, the spec's `ChunkCountMismatch`),
a failing chunk decryption (`Failed to decrypt chunk i`, source also
reports the position), and a `base64ToUint8Array` throw. -/
inductive AssembleError
  | missingChunks (got total : Nat)
  | chunkDecryptFailed (e : DecryptError)
  | invalidBase64Content
  deriving DecidableEq, Repr

/-- The base64 decoding loop of `fetchFileBytes`: decode every chunk's
content, failing as a whole when one decode throws. -/
def decodeAllChunks : List ChunkEvent → Option (List (List Nat))
  | [] => some []
  | c :: rest =>
      match base64ToUint8Array c.content.data with
      | none => none
      | some part =>
          match decodeAllChunks rest with
          | none => none
          | some parts => some (part :: parts)

/-- The decryption loop of `downloadEncrypted` (src DownloadModal.tsx):
decrypt every chunk in order; the first failure aborts the loop. -/
def decryptAllChunks (P : NoblePrims) (secretKey : List Nat) (pubkey : String) :
    List ChunkEvent → Except AssembleError (List (List Nat))
  | [] => .ok []
  | c :: rest =>
      match decryptChunkBinary P c.content.data secretKey pubkey with
      | .error e => .error (.chunkDecryptFailed e)
      | .ok part =>
          match decryptAllChunks P secretKey pubkey rest with
          | .error e => .error e
          | .ok parts => .ok (part :: parts)

/-- Embedding of the assembly step of `fetchFileBytes`
(src/src/lib/fileUtils.ts): verify the chunk count against the
manifest's `total_chunks`, base64-decode each chunk, concatenate. -/
def assembleUnencrypted (chunks : List ChunkEvent) (totalChunks : Nat) :
    Except AssembleError (List Nat) :=
  if chunks.length ≠ totalChunks then
    .error (.missingChunks chunks.length totalChunks)
  else
    match decodeAllChunks chunks with
    | none => .error .invalidBase64Content
    | some parts => .ok parts.flatten

/-- Embedding of the decrypt-and-assemble step of `downloadEncrypted`
(src DownloadModal.tsx): verify the chunk count, decrypt every chunk,
concatenate; any failure aborts the whole operation. -/
def assembleEncrypted (P : NoblePrims) (chunks : List ChunkEvent)
    (totalChunks : Nat) (secretKey : List Nat) (pubkey : String) :
    Except AssembleError (List Nat) :=
  if chunks.length ≠ totalChunks then
    .error (.missingChunks chunks.length totalChunks)
  else
    match decryptAllChunks P secretKey pubkey chunks with
    | .error e => .error e
    | .ok parts => .ok parts.flatten

/-- Resolution failures of the index/manifest resolvers. -/
inductive ResolveError
  | unsupportedVersion (v : Int)
  deriving DecidableEq, Repr

/-- File index content (interface `FileIndex`, src/src/lib/types.ts),
restricted to the fields the resolver inspects; the entry list is not
consulted during resolution. -/
structure FileIndex where
  version : Int
  total_archives : Int
  deriving DecidableEq, Repr

/-- Manifest content (interface `Manifest`, src/src/lib/types.ts),
restricted to the fields the resolver inspects. -/
structure ManifestData where
  version : Int
  total_chunks : Nat
  deriving DecidableEq, Repr

/-- The source's `events.reduce((a, b) => a.created_at > b.created_at ? a : b)`:
the greatest creation timestamp wins and ties go to the later-seen
record. -/
def selectNewest (e0 : NostrEvent) (rest : List NostrEvent) : NostrEvent :=
  rest.foldl (fun a b => if a.created_at > b.created_at then a else b) e0

/-- Shared tail of `fetchFileIndex` (src/src/lib/nostr.ts): an empty
query result or unparsable content give `none` (NotFound); a parsed
index whose version is not 2 is fatal. Parametric in the external
`JSON.parse`. -/
def resolveIndexEvents (parse : String → Option FileIndex) :
    List NostrEvent → Except ResolveError (Option FileIndex)
  | [] => .ok none
  | e0 :: rest =>
      match parse (selectNewest e0 rest).content with
      | none => .ok none
      | some idx =>
          if idx.version ≠ 2 then .error (.unsupportedVersion idx.version)
          else .ok (some idx)

/-- `D_TAGS.CURRENT_INDEX` of src/src/lib/types.ts. -/
def dTagCurrent : String := "nostrsave-index"

/-- `D_TAGS.archiveTag` of src/src/lib/types.ts. -/
def archiveTag (n : Int) : String := "nostrsave-index-archive-" ++ toString n

/-- Embedding of `getDTagForPage` (src/src/lib/nostr.ts). -/
def getDTagForPage (page : Int) (totalArchives : Int) : String :=
  if page = 1 then dTagCurrent
  else archiveTag (totalArchives + 2 - page)

/-- Embedding of `fetchFileIndex` (src/src/lib/nostr.ts), the relay
pool modelled as a function from the requested `d` tag to the events
`querySync` returns (event kind, author and limit are fixed by the
source). Page 1 queries the current-index tag; any other page first
resolves page 1 (the source's recursive call, which always takes the
page-1 branch) to learn `total_archives`. -/
def fetchFileIndex (parse : String → Option FileIndex)
    (q : String → List NostrEvent) (page : Int) :
    Except ResolveError (Option FileIndex) :=
  if page = 1 then resolveIndexEvents parse (q dTagCurrent)
  else
    match resolveIndexEvents parse (q dTagCurrent) with
    | .error e => .error e
    | .ok none => .ok none
    | .ok (some currentIndex) =>
        resolveIndexEvents parse
          (q (getDTagForPage page currentIndex.total_archives))

/-- Embedding of `fetchManifest` (src/src/lib/nostr.ts): the source
queries the content-tag (`#x`) filter and then the identifier-tag
(`#d`) filter, stopping at the first nonempty result; among those
events the newest creation timestamp wins; parse failure folds into
NotFound; a version other than 2 is fatal. The two query results are
the inputs. -/
def fetchManifest (parse : String → Option ManifestData)
    (eventsX eventsD : List NostrEvent) :
    Except ResolveError (Option ManifestData) :=
  match (if eventsX.length > 0 then eventsX else eventsD) with
  | [] => .ok none
  | e0 :: rest =>
      match parse (selectNewest e0 rest).content with
      | none => .ok none
      | some m =>
          if m.version ≠ 2 then .error (.unsupportedVersion m.version)
          else .ok (some m)

/-- C5: assembly never produces a partial or truncated file — a chunk
list whose length differs from the manifest's `total_chunks` fails
with the chunk-count mismatch error for both the unencrypted and the
encrypted path, and when any single chunk of an encrypted file fails
to decrypt the whole operation fails and no bytes are produced. -/
theorem c5_assemble_all_or_nothing :
    (∀ (chunks : List ChunkEvent) (totalChunks : Nat),
      chunks.length ≠ totalChunks →
      assembleUnencrypted chunks totalChunks =
        .error (.missingChunks chunks.length totalChunks)) ∧
    (∀ (P : NoblePrims) (chunks : List ChunkEvent) (totalChunks : Nat)
        (sk : List Nat) (pk : String),
      chunks.length ≠ totalChunks →
      assembleEncrypted P chunks totalChunks sk pk =
        .error (.missingChunks chunks.length totalChunks)) ∧
    (∀ (P : NoblePrims) (chunks : List ChunkEvent) (totalChunks : Nat)
        (sk : List Nat) (pk : String) (c : ChunkEvent),
      c ∈ chunks →
      (∃ e, decryptChunkBinary P c.content.data sk pk = .error e) →
      ∀ out, assembleEncrypted P chunks totalChunks sk pk ≠ .ok out) := by
  have hdec : ∀ (P : NoblePrims) (sk : List Nat) (pk : String)
      (chunks : List ChunkEvent) (c : ChunkEvent), c ∈ chunks →
      (∃ e, decryptChunkBinary P c.content.data sk pk = .error e) →
      ∃ e2, decryptAllChunks P sk pk chunks = .error e2 := by
    intro P sk pk chunks
    induction chunks with
    | nil =>
        intro c hc
        simp at hc
    | cons hd tl ih =>
        intro c hc hex
        obtain ⟨e, he⟩ := hex
        rcases List.mem_cons.mp hc with rfl | hc2
        · refine ⟨.chunkDecryptFailed e, ?_⟩
          unfold decryptAllChunks
          rw [he]
        · obtain ⟨e2, he2⟩ := ih c hc2 ⟨e, he⟩
          unfold decryptAllChunks
          cases hhd : decryptChunkBinary P hd.content.data sk pk with
          | error e3 => exact ⟨.chunkDecryptFailed e3, rfl⟩
          | ok part => exact ⟨e2, by simp only [he2]⟩
  refine ⟨?_, ?_, ?_⟩
  · intro chunks totalChunks h
    unfold assembleUnencrypted
    rw [if_pos h]
  · intro P chunks totalChunks sk pk h
    unfold assembleEncrypted
    rw [if_pos h]
  · intro P chunks totalChunks sk pk c hc hex out
    unfold assembleEncrypted
    split
    · simp
    · obtain ⟨e2, he2⟩ := hdec P sk pk chunks c hc hex
      rw [he2]
      simp

/-- Witness for C5: an empty chunk list against `total_chunks = 1`,
and a single chunk whose content is too short to decrypt. -/
theorem c5_assemble_all_or_nothing_witness :
    assembleUnencrypted [] 1 = .error (.missingChunks 0 1) ∧
    assembleEncrypted witnessPrims [] 1 [] "" = .error (.missingChunks 0 1) ∧
    assembleEncrypted witnessPrims [⟨0, "x", "nip44"⟩] 1 [] "" ≠ .ok [] :=
  ⟨c5_assemble_all_or_nothing.1 [] 1 (by decide),
   c5_assemble_all_or_nothing.2.1 witnessPrims [] 1 [] "" (by decide),
   c5_assemble_all_or_nothing.2.2 witnessPrims [⟨0, "x", "nip44"⟩] 1 [] ""
     ⟨0, "x", "nip44"⟩ (by simp) ⟨.invalidPayloadLength, by rfl⟩ []⟩

/-- C6: a located manifest or index record that parses to a version
other than 2 makes resolution fail with `unsupportedVersion` carrying
that version — neither accepted nor folded into NotFound. -/
theorem c6_version_gate :
    (∀ (parse : String → Option ManifestData)
        (eventsX eventsD : List NostrEvent) (e0 : NostrEvent)
        (rest : List NostrEvent) (m : ManifestData),
      (if eventsX.length > 0 then eventsX else eventsD) = e0 :: rest →
      parse (selectNewest e0 rest).content = some m →
      m.version ≠ 2 →
      fetchManifest parse eventsX eventsD =
        .error (.unsupportedVersion m.version)) ∧
    (∀ (parse : String → Option FileIndex) (q : String → List NostrEvent)
        (e0 : NostrEvent) (rest : List NostrEvent) (idx : FileIndex),
      q dTagCurrent = e0 :: rest →
      parse (selectNewest e0 rest).content = some idx →
      idx.version ≠ 2 →
      fetchFileIndex parse q 1 = .error (.unsupportedVersion idx.version)) := by
  constructor
  · intro parse eventsX eventsD e0 rest m hev hp hv
    simp only [fetchManifest, hev, hp]
    rw [if_pos hv]
  · intro parse q e0 rest idx hq hp hv
    unfold fetchFileIndex
    rw [if_pos rfl]
    simp only [hq, resolveIndexEvents, hp]
    rw [if_pos hv]

/-- Witness for C6: a single manifest record with version 1 is
rejected with `unsupportedVersion 1` (the spec's example). -/
theorem c6_version_gate_witness :
    fetchManifest (fun _ => some ⟨1, 0⟩) [⟨"i", [], "x", 0⟩] [] =
      .error (.unsupportedVersion 1) :=
  c6_version_gate.1 (fun _ => some ⟨1, 0⟩) [⟨"i", [], "x", 0⟩] []
    ⟨"i", [], "x", 0⟩ [] ⟨1, 0⟩ (by rfl) (by rfl) (by decide)

/-- C7: page 1 maps to the fixed current-index identifier; page N > 1
first resolves page 1, fails with NotFound when page 1 does, and
otherwise looks up the identifier for archive number
`total_archives + 2 - N`. -/
theorem c7_page_resolution :
    (∀ t : Int, getDTagForPage 1 t = dTagCurrent) ∧
    (∀ page t : Int, page ≠ 1 →
      getDTagForPage page t = archiveTag (t + 2 - page)) ∧
    (∀ (parse : String → Option FileIndex) (q : String → List NostrEvent)
        (page : Int), page ≠ 1 → fetchFileIndex parse q 1 = .ok none →
      fetchFileIndex parse q page = .ok none) ∧
    (∀ (parse : String → Option FileIndex) (q : String → List NostrEvent)
        (page : Int) (m : FileIndex),
      page ≠ 1 → fetchFileIndex parse q 1 = .ok (some m) →
      fetchFileIndex parse q page =
        resolveIndexEvents parse
          (q (archiveTag (m.total_archives + 2 - page)))) := by
  have hpage1 : ∀ (parse : String → Option FileIndex)
      (q : String → List NostrEvent),
      fetchFileIndex parse q 1 = resolveIndexEvents parse (q dTagCurrent) := by
    intro parse q
    unfold fetchFileIndex
    rw [if_pos rfl]
  refine ⟨?_, ?_, ?_, ?_⟩
  · intro t
    unfold getDTagForPage
    rw [if_pos rfl]
  · intro page t h
    unfold getDTagForPage
    rw [if_neg h]
  · intro parse q page hp h1
    rw [hpage1] at h1
    unfold fetchFileIndex
    rw [if_neg hp, h1]
  · intro parse q page m hp h1
    rw [hpage1] at h1
    unfold fetchFileIndex
    rw [if_neg hp, h1]
    show resolveIndexEvents parse (q (getDTagForPage page m.total_archives)) = _
    unfold getDTagForPage
    rw [if_neg hp]

/-- Concrete `JSON.parse` for the C7 witness: the current index has
`total_archives = 1`, archives parse to `total_archives = 9`. -/
def witnessIndexParse : String → Option FileIndex :=
  fun s => if s = "cur" then some ⟨2, 1⟩ else some ⟨2, 9⟩

/-- Concrete relay-pool results for the C7 witness. -/
def witnessIndexQuery : String → List NostrEvent :=
  fun tag =>
    if tag = dTagCurrent then [⟨"a", [], "cur", 5⟩]
    else if tag = archiveTag 1 then [⟨"b", [], "arc", 6⟩] else []

/-- Witness for C7: resolving page 2 against the witness pool equals
resolving the events of archive number `1 + 2 - 2 = 1`. -/
theorem c7_page_resolution_witness :
    fetchFileIndex witnessIndexParse witnessIndexQuery 2 =
      resolveIndexEvents witnessIndexParse
        (witnessIndexQuery (archiveTag ((1 : Int) + 2 - 2))) :=
  c7_page_resolution.2.2.2 witnessIndexParse witnessIndexQuery 2 ⟨2, 1⟩
    (by decide) (by rfl)

theorem selectNewest_spec : ∀ (rest : List NostrEvent) (e0 : NostrEvent),
    selectNewest e0 rest ∈ e0 :: rest ∧
    ∀ x ∈ e0 :: rest, x.created_at ≤ (selectNewest e0 rest).created_at
  | [], e0 => by
      constructor
      · simp [selectNewest]
      · intro x hx
        rcases List.mem_cons.mp hx with rfl | hx
        · simp [selectNewest]
        · simp at hx
  | b :: rest, e0 => by
      obtain ⟨ih1, ih2⟩ := selectNewest_spec rest
        (if e0.created_at > b.created_at then e0 else b)
      have heq : selectNewest e0 (b :: rest) =
          selectNewest (if e0.created_at > b.created_at then e0 else b) rest := rfl
      have hm : e0.created_at ≤
            (if e0.created_at > b.created_at then e0 else b).created_at ∧
          b.created_at ≤
            (if e0.created_at > b.created_at then e0 else b).created_at := by
        by_cases hc : e0.created_at > b.created_at
        · rw [if_pos hc]
          omega
        · rw [if_neg hc]
          omega
      constructor
      · rw [heq]
        rcases List.mem_cons.mp ih1 with h | h
        · rw [h]
          by_cases hc : e0.created_at > b.created_at
          · rw [if_pos hc]
            exact List.mem_cons_self _ _
          · rw [if_neg hc]
            exact List.mem_cons.mpr (Or.inr (List.mem_cons_self _ _))
        · exact List.mem_cons.mpr (Or.inr (List.mem_cons.mpr (Or.inr h)))
      · intro x hx
        rw [heq]
        have hmax := ih2 (if e0.created_at > b.created_at then e0 else b)
          (List.mem_cons_self _ _)
        rcases List.mem_cons.mp hx with rfl | hx2
        · omega
        · rcases List.mem_cons.mp hx2 with rfl | hx3
          · omega
          · exact ih2 x (List.mem_cons.mpr (Or.inr hx3))

/-- Concrete `JSON.parse` for the C8 tie-break example. -/
def witnessManifestParse : String → Option ManifestData :=
  fun s => if s = "m200" then some ⟨2, 200⟩ else some ⟨2, 100⟩

/-- C8: index and manifest resolution return the content of a record
with the greatest creation timestamp among the located records; in
the spec's example, two records timestamped 100 and 200 resolve to
the one timestamped 200, in either arrival order. -/
theorem c8_newest_wins :
    (∀ (parse : String → Option ManifestData)
        (eventsX eventsD : List NostrEvent) (m : ManifestData),
      fetchManifest parse eventsX eventsD = .ok (some m) →
      ∃ w, (w ∈ eventsX ∨ w ∈ eventsD) ∧ parse w.content = some m ∧
        ∀ x ∈ (if eventsX.length > 0 then eventsX else eventsD),
          x.created_at ≤ w.created_at) ∧
    (∀ (parse : String → Option FileIndex) (events : List NostrEvent)
        (idx : FileIndex),
      resolveIndexEvents parse events = .ok (some idx) →
      ∃ w ∈ events, parse w.content = some idx ∧
        ∀ x ∈ events, x.created_at ≤ w.created_at) ∧
    (fetchManifest witnessManifestParse
        [⟨"i1", [], "m100", 100⟩, ⟨"i2", [], "m200", 200⟩] []
        = .ok (some ⟨2, 200⟩) ∧
     fetchManifest witnessManifestParse
        [⟨"i2", [], "m200", 200⟩, ⟨"i1", [], "m100", 100⟩] []
        = .ok (some ⟨2, 200⟩)) := by
  refine ⟨?_, ?_, by rfl, by rfl⟩
  · intro parse eventsX eventsD m h
    unfold fetchManifest at h
    cases hev : (if eventsX.length > 0 then eventsX else eventsD) with
    | nil =>
        rw [hev] at h
        simp at h
    | cons e0 rest =>
        simp only [hev] at h
        obtain ⟨hw1, hw2⟩ := selectNewest_spec rest e0
        cases hp : parse (selectNewest e0 rest).content with
        | none =>
            simp only [hp] at h
            simp at h
        | some m2 =>
            simp only [hp] at h
            split at h
            · simp at h
            · injection h with h
              injection h with h
              subst h
              refine ⟨selectNewest e0 rest, ?_, hp, ?_⟩
              · by_cases hc : eventsX.length > 0
                · rw [if_pos hc] at hev
                  exact Or.inl (hev ▸ hw1)
                · rw [if_neg hc] at hev
                  exact Or.inr (hev ▸ hw1)
              · intro x hx
                exact hw2 x hx
  · intro parse events idx h
    cases events with
    | nil => simp [resolveIndexEvents] at h
    | cons e0 rest =>
        obtain ⟨hw1, hw2⟩ := selectNewest_spec rest e0
        cases hp : parse (selectNewest e0 rest).content with
        | none =>
            simp only [resolveIndexEvents, hp] at h
            simp at h
        | some m2 =>
            simp only [resolveIndexEvents, hp] at h
            split at h
            · simp at h
            · injection h with h
              injection h with h
              subst h
              exact ⟨selectNewest e0 rest, hw1, hp, hw2⟩

/-- Witness for C8 at the spec's 100/200 tie-break example. -/
theorem c8_newest_wins_witness :
    ∃ w, (w ∈ [(⟨"i1", [], "m100", 100⟩ : NostrEvent),
          ⟨"i2", [], "m200", 200⟩] ∨ w ∈ ([] : List NostrEvent)) ∧
      witnessManifestParse w.content = some ⟨2, 200⟩ ∧
      ∀ x ∈ (if [(⟨"i1", [], "m100", 100⟩ : NostrEvent),
            ⟨"i2", [], "m200", 200⟩].length > 0
          then [(⟨"i1", [], "m100", 100⟩ : NostrEvent), ⟨"i2", [], "m200", 200⟩]
          else []), x.created_at ≤ w.created_at :=
  c8_newest_wins.1 witnessManifestParse
    [⟨"i1", [], "m100", 100⟩, ⟨"i2", [], "m200", 200⟩] [] ⟨2, 200⟩ (by rfl)

/-- Phase of one `fetchChunks` caller, at the suspension points of the
source (src/src/lib/nostr.ts): `notStarted` before the call;
`waiting` suspended on `await cached.inFlight`; `collecting` as the
sole in-flight collector, between `pool.subscribe` (which runs
synchronously inside the fetch promise before its first `await`, in
the same atomic block that stores the promise in `entry.inFlight`)
and `sub.close()`; `finishing` after the fetch promise has resolved
(subscription closed) but before the `finally` block of
`await fetchPromise` has cleared the marker; `done` after return. -/
inductive Phase
  | notStarted
  | waiting
  | collecting
  | finishing
  | done
  deriving DecidableEq, Repr

/-- Shared state of two concurrent `fetchChunks` callers for one cache
key: each caller's phase, the cache entry's `inFlight` marker (tagged
by the caller whose promise it holds), the number of open
subscriptions, and whether the cache already holds all chunks. -/
structure ConcState where
  ph1 : Phase
  ph2 : Phase
  inFlight : Option Nat
  live : Nat
  complete : Bool
  deriving DecidableEq, Repr

/-- One atomic step of the cooperative scheduler, each constructor an
uninterrupted block of the source between suspension points.
`hit` is the immediate cache-hit return; `coalesce` is a caller that
sees an `inFlight` marker and suspends awaiting it; `solo` is the
block that opens the one subscription, stores the promise in
`entry.inFlight` and suspends (all before any `await`); `receive`
abstracts the subscription completing the cache; `close` is the end
of the polling loop (completion, inactivity timeout or ceiling —
success or failure alike) closing the subscription and resolving the
fetch promise; `clear` is the `finally` block clearing the marker;
`wakeHit`/`wakeRetry` resume a waiter after the awaited effort fully
finished (continuations resume in registration order, and the
collector registered its own `await fetchPromise` first, so its
`finally` runs before any waiter resumes). -/
inductive Step : ConcState → ConcState → Prop
  | hit1 (s : ConcState) : s.ph1 = .notStarted → s.complete = true →
      Step s { s with ph1 := .done }
  | hit2 (s : ConcState) : s.ph2 = .notStarted → s.complete = true →
      Step s { s with ph2 := .done }
  | coalesce1 (s : ConcState) (j : Nat) : s.ph1 = .notStarted →
      s.complete = false → s.inFlight = some j →
      Step s { s with ph1 := .waiting }
  | coalesce2 (s : ConcState) (j : Nat) : s.ph2 = .notStarted →
      s.complete = false → s.inFlight = some j →
      Step s { s with ph2 := .waiting }
  | solo1 (s : ConcState) : s.ph1 = .notStarted → s.complete = false →
      s.inFlight = none →
      Step s { s with ph1 := .collecting, inFlight := some 1, live := s.live + 1 }
  | solo2 (s : ConcState) : s.ph2 = .notStarted → s.complete = false →
      s.inFlight = none →
      Step s { s with ph2 := .collecting, inFlight := some 2, live := s.live + 1 }
  | receive1 (s : ConcState) : s.ph1 = .collecting →
      Step s { s with complete := true }
  | receive2 (s : ConcState) : s.ph2 = .collecting →
      Step s { s with complete := true }
  | close1 (s : ConcState) : s.ph1 = .collecting →
      Step s { s with ph1 := .finishing, live := s.live - 1 }
  | close2 (s : ConcState) : s.ph2 = .collecting →
      Step s { s with ph2 := .finishing, live := s.live - 1 }
  | clear1 (s : ConcState) : s.ph1 = .finishing →
      Step s { s with ph1 := .done, inFlight := none }
  | clear2 (s : ConcState) : s.ph2 = .finishing →
      Step s { s with ph2 := .done, inFlight := none }
  | wakeHit1 (s : ConcState) : s.ph1 = .waiting → s.ph2 = .done →
      s.complete = true → Step s { s with ph1 := .done }
  | wakeHit2 (s : ConcState) : s.ph2 = .waiting → s.ph1 = .done →
      s.complete = true → Step s { s with ph2 := .done }
  | wakeRetry1 (s : ConcState) : s.ph1 = .waiting → s.ph2 = .done →
      s.complete = false →
      Step s { s with ph1 := .collecting, inFlight := some 1, live := s.live + 1 }
  | wakeRetry2 (s : ConcState) : s.ph2 = .waiting → s.ph1 = .done →
      s.complete = false →
      Step s { s with ph2 := .collecting, inFlight := some 2, live := s.live + 1 }

/-- States reachable from two not-yet-started callers with no marker
and no open subscription (the cache may or may not be complete). -/
inductive Reach : ConcState → Prop
  | start (c : Bool) : Reach ⟨.notStarted, .notStarted, none, 0, c⟩
  | step {s t : ConcState} : Reach s → Step s t → Reach t

/-- Coherence invariant: the marker names caller i exactly while that
caller's effort is running or not yet cleaned up, and the number of
open subscriptions is the number of callers in the collecting phase. -/
def concInv (s : ConcState) : Prop :=
  (s.inFlight = some 1 ↔ (s.ph1 = .collecting ∨ s.ph1 = .finishing)) ∧
  (s.inFlight = some 2 ↔ (s.ph2 = .collecting ∨ s.ph2 = .finishing)) ∧
  s.live = (if s.ph1 = .collecting then 1 else 0) +
    (if s.ph2 = .collecting then 1 else 0)

theorem reach_concInv {s : ConcState} (h : Reach s) : concInv s := by
  induction h with
  | start c => simp [concInv]
  | step hr hstep ih =>
      obtain ⟨i1, i2, i3⟩ := ih
      cases hstep with
      | hit1 h1 h2 => exact ⟨by simp_all, by simp_all, by simp_all⟩
      | hit2 h1 h2 => exact ⟨by simp_all, by simp_all, by simp_all⟩
      | coalesce1 j h1 h2 h3 => exact ⟨by simp_all, by simp_all, by simp_all⟩
      | coalesce2 j h1 h2 h3 => exact ⟨by simp_all, by simp_all, by simp_all⟩
      | solo1 h1 h2 h3 => exact ⟨by simp_all, by simp_all, by simp_all⟩
      | solo2 h1 h2 h3 => exact ⟨by simp_all, by simp_all, by simp_all⟩
      | receive1 h1 => exact ⟨by simp_all, by simp_all, by simp_all⟩
      | receive2 h1 => exact ⟨by simp_all, by simp_all, by simp_all⟩
      | close1 h1 => exact ⟨by simp_all, by simp_all, by simp_all⟩
      | close2 h1 => exact ⟨by simp_all, by simp_all, by simp_all⟩
      | clear1 h1 => exact ⟨by simp_all, by simp_all, by simp_all⟩
      | clear2 h1 => exact ⟨by simp_all, by simp_all, by simp_all⟩
      | wakeHit1 h1 h2 h3 => exact ⟨by simp_all, by simp_all, by simp_all⟩
      | wakeHit2 h1 h2 h3 => exact ⟨by simp_all, by simp_all, by simp_all⟩
      | wakeRetry1 h1 h2 h3 => exact ⟨by simp_all, by simp_all, by simp_all⟩
      | wakeRetry2 h1 h2 h3 => exact ⟨by simp_all, by simp_all, by simp_all⟩

/-- C9: for two concurrent `fetchChunks` callers on one cache key, in
every reachable interleaving at most one subscription is live; the
in-flight marker names a caller exactly while that caller's effort is
running or awaiting its `finally` cleanup — so a finished caller
(success or failure) never leaves its marker behind; and a caller
arriving while the other's effort is in flight can only move to the
waiting phase, changing neither the subscription count nor the
marker (it awaits the single effort instead of starting network
work). -/
theorem c9_inflight_coalescing :
    (∀ s : ConcState, Reach s → s.live ≤ 1) ∧
    (∀ s : ConcState, Reach s →
      ((s.inFlight = some 1 ↔ (s.ph1 = .collecting ∨ s.ph1 = .finishing)) ∧
       (s.inFlight = some 2 ↔ (s.ph2 = .collecting ∨ s.ph2 = .finishing)))) ∧
    (∀ s : ConcState, Reach s → s.ph1 = .done → s.inFlight ≠ some 1) ∧
    (∀ s : ConcState, Reach s → s.ph2 = .done → s.inFlight ≠ some 2) ∧
    (∀ s t : ConcState, Step s t → s.ph2 = .notStarted → s.complete = false →
      s.inFlight = some 1 → t.ph2 ≠ s.ph2 →
      (t.ph2 = .waiting ∧ t.live = s.live ∧ t.inFlight = s.inFlight)) := by
  refine ⟨?_, ?_, ?_, ?_, ?_⟩
  · intro s hs
    obtain ⟨i1, i2, i3⟩ := reach_concInv hs
    by_cases h1 : s.ph1 = .collecting <;> by_cases h2 : s.ph2 = .collecting
    · exfalso
      have e1 := i1.mpr (Or.inl h1)
      have e2 := i2.mpr (Or.inl h2)
      simp_all
    all_goals simp_all
  · intro s hs
    obtain ⟨i1, i2, _⟩ := reach_concInv hs
    exact ⟨i1, i2⟩
  · intro s hs hdone
    obtain ⟨i1, _, _⟩ := reach_concInv hs
    intro hif
    rcases i1.mp hif with h | h <;> simp_all
  · intro s hs hdone
    obtain ⟨_, i2, _⟩ := reach_concInv hs
    intro hif
    rcases i2.mp hif with h | h <;> simp_all
  · intro s t hstep h1 h2 h3 hne
    cases hstep <;> simp_all

/-- Witness for C9: the state reached after caller 1's opening block
(collecting, marker held, one open subscription) has at most one live
subscription. -/
theorem c9_inflight_coalescing_witness :
    ({ ph1 := .collecting, ph2 := .notStarted, inFlight := some 1, live := 1,
       complete := false } : ConcState).live ≤ 1 :=
  c9_inflight_coalescing.1 _
    (Reach.step (Reach.start false) (Step.solo1 _ rfl rfl rfl))

end NostrFetch
